import Mathlib

/-!
Verification development for the chat-bot repository (src/main.rs).

The program is a long-polling client: a `TelegramClient` owns a cursor
(`offset`), `get_updates` fetches a batch of events and advances the cursor,
`listen` loops forever fanning out one task per event (`process_update`) and
joining all of them before the next poll, and `process_update` fetches an
artifact (`get_file`) and re-submits it (`send_photo`).

The embedding below translates those functions into pure Lean functions.
Outbound HTTP traffic is modelled by environments supplying the remote
response to each call; code paths that panic in Rust (`panic!`, `.unwrap()`,
`.expect(...)`) are modelled by the `panicked` constructor of `PResult`.
-/

namespace ChatBot

/-- JSON values as manipulated by the program through serde_json::Value.
Numbers are restricted to integers: the program only ever reads numbers with
as_i64, and the claims never involve non-integral numbers. -/
inductive Json where
  | null
  | jbool (b : Bool)
  | jint (n : Int)
  | jstr (s : String)
  | jarr (elems : List Json)
  | jobj (fields : List (String × Json))

/-- Lookup of a key in a JSON object's field list (first match). -/
def jlookup : List (String × Json) → String → Option Json
  | [], _ => none
  | (k, v) :: rest, key => if k == key then some v else jlookup rest key

/-- Value::get on a serde_json::Value: some value for a present key of an
object, none for a missing key or a non-object. -/
def Json.getKey : Json → String → Option Json
  | .jobj fields, key => jlookup fields key
  | _, _ => none

/-- Indexing a serde_json::Value with a string key (the Index impl used by
expressions like message["photo"]): the field's value when present, and
Value::Null for a missing key or a non-object. -/
def Json.vindex (j : Json) (key : String) : Json :=
  match j.getKey key with
  | some v => v
  | none => .null

/-- Whether a JSON value is an object carrying the given key. -/
def Json.hasKey (j : Json) (key : String) : Bool :=
  (j.getKey key).isSome

/-- Value::as_bool. -/
def Json.as_bool : Json → Option Bool
  | .jbool b => some b
  | _ => none

/-- Value::as_i64 (integral numbers only, see Json). -/
def Json.as_i64 : Json → Option Int
  | .jint n => some n
  | _ => none

/-- Value::as_str. -/
def Json.as_str : Json → Option String
  | .jstr s => some s
  | _ => none

/-- Value::as_array. -/
def Json.as_array : Json → Option (List Json)
  | .jarr elems => some elems
  | _ => none

/-- Value::as_object (the field list of an object). -/
def Json.as_object : Json → Option (List (String × Json))
  | .jobj fields => some fields
  | _ => none

/-- The error taxonomy of the gateway:  transport covers every error
propagated with the question-mark operator out of reqwest (connection
failure, timeout, non-success HTTP status, body/JSON decoding failure);
remote is the "Telegram call returned error" string error built from a
response whose ok flag is false, carrying the raw response for diagnostics. -/
inductive CallError where
  | transport
  | remote (payload : Json)

/-- The outcome of running a piece of Rust code that returns Result but may
also panic: ok, an error, or a panic (panic! or a failed unwrap/expect). -/
inductive PResult (α : Type) where
  | ok (a : α)
  | err (e : CallError)
  | panicked

/-- Whether a PResult is a panic. -/
def PResult.isPanicked : PResult α → Bool
  | .panicked => true
  | _ => false

/-- The remote side of one HTTP exchange, as the program observes it:
either the transport layer failed (send error, timeout, or a non-success
status from error_for_status, or an unparsable body), or a JSON body was
obtained. -/
inductive HttpResponse where
  | transportError
  | httpError
  | ok (body : Json)

/-- TelegramClient::request_to_json: propagate transport-level failures with
the question mark; panic! when the parsed body is not a JSON object; read the
"ok" flag (indexing the map panics when the key is missing, and as_bool
unwrap panics when it is not a boolean — both are panics); when ok is true,
remove and return the "result" field (unwrap panics when absent); when ok is
false, return the remote error carrying the whole response object. -/
def request_to_json : HttpResponse → PResult Json
  | .transportError => .err .transport
  | .httpError => .err .transport
  | .ok body =>
    match body with
    | .jobj fields =>
      match jlookup fields "ok" with
      | some (.jbool true) =>
        match jlookup fields "result" with
        | some r => .ok r
        | none => .panicked
      | some (.jbool false) => .err (.remote (.jobj fields))
      | _ => .panicked
    | _ => .panicked

/-- The per-request timeout (seconds) set by TelegramClient::call_method:
90 for getUpdates, 10 for every other method. -/
def call_method_timeout (method : String) : Nat :=
  if method == "getUpdates" then 90 else 10

/-- The default timeout (seconds) configured on the reqwest client in
TelegramClient::new; it governs requests issued without a per-request
timeout (the file download in get_file and the sendPhoto upload). -/
def clientTimeout : Nat := 10

/-- The long-poll wait (seconds) requested from the remote side in the
getUpdates parameters. -/
def getUpdatesWaitSecs : Nat := 60

/-- The JSON parameter object built by TelegramClient::get_updates. -/
def getUpdatesParams (offset : Int) : Json :=
  .jobj [("offset", .jint offset), ("timeout", .jint (getUpdatesWaitSecs : Nat)),
         ("allowed_updates", .jarr [.jstr "message"])]

/-- The four kinds of outbound HTTP request the program issues. -/
inductive OutboundCall where
  | callGetUpdates
  | callGetFile
  | callFileDownload
  | callSendPhoto

/-- The timeout (seconds) effectively governing each outbound request:
call_method's per-request timeout for the JSON-API calls issued through it
(getUpdates, getFile), and the client default for the two requests issued
directly on the reqwest client (the file download GET in get_file and the
multipart sendPhoto POST). -/
def requestTimeoutSecs : OutboundCall → Nat
  | .callGetUpdates => call_method_timeout "getUpdates"
  | .callGetFile => call_method_timeout "getFile"
  | .callFileDownload => clientTimeout
  | .callSendPhoto => clientTimeout

/-- The client state: the secret token and the poll cursor. The http handle
holds only static configuration (timeouts) and is modelled by clientTimeout. -/
structure TelegramClient where
  token : String
  offset : Int

/-- TelegramClient::new: reads the token (absence is a fatal startup panic,
modelled by taking the token as an argument), builds the http client, and
initializes the cursor to 0. -/
def TelegramClient.new (token : String) : TelegramClient :=
  { token := token, offset := 0 }

/-- TelegramClient::build_url. -/
def build_url (c : TelegramClient) (method : String) : String :=
  "https://api.telegram.org/bot" ++ c.token ++ "/" ++ method

/-- TelegramClient::get_updates, as a function of the current cursor and of
the remote response to the getUpdates call: run request_to_json; panic when
the result is not an array (as_array unwrap); when the array is non-empty,
set the cursor to the last element's update_id plus one (panicking when that
field is not an integer); return the result array together with the cursor
after the call. -/
def get_updates (offset : Int) (resp : HttpResponse) : PResult (Json × Int) :=
  match request_to_json resp with
  | .err e => .err e
  | .panicked => .panicked
  | .ok response =>
    match response.as_array with
    | none => .panicked
    | some arr =>
      match arr.getLast? with
      | none => .ok (response, offset)
      | some last =>
        match (last.vindex "update_id").as_i64 with
        | none => .panicked
        | some uid => .ok (response, uid + 1)

/-- Artifact bytes. -/
abbrev Bytes := List Nat

/-- The environment of one processing task: the remote responses to the (at
most one) getFile call, file-download GET, and sendPhoto call it issues. -/
structure ProcEnv where
  getFileResp : HttpResponse
  downloadResp : Except Unit Bytes
  sendPhotoResp : HttpResponse

/-- The outbound calls a processing task can issue, in the order recorded. -/
inductive ProcCall where
  | getFileCall (file_id : String)
  | downloadCall (file_path : String)
  | sendPhotoCall (chat_id : Int) (reply_to : Int)

/-- TelegramClient::get_file: call the getFile method; panic when its result
is not an object (as_object unwrap), when the object lacks "file_path"
(map indexing panics on a missing key), or when that field is not a string
(as_str unwrap); then GET the download URL, propagating transport failures.
Returns the outcome paired with the calls issued. -/
def get_file (env : ProcEnv) (file_id : String) : PResult Bytes × List ProcCall :=
  match request_to_json env.getFileResp with
  | .err e => (.err e, [ProcCall.getFileCall file_id])
  | .panicked => (.panicked, [ProcCall.getFileCall file_id])
  | .ok v =>
    match v.as_object with
    | none => (.panicked, [ProcCall.getFileCall file_id])
    | some fields =>
      match jlookup fields "file_path" with
      | none => (.panicked, [ProcCall.getFileCall file_id])
      | some fp =>
        match fp.as_str with
        | none => (.panicked, [ProcCall.getFileCall file_id])
        | some file_path =>
          match env.downloadResp with
          | .error _ =>
            (.err .transport, [ProcCall.getFileCall file_id, .downloadCall file_path])
          | .ok bytes =>
            (.ok bytes, [ProcCall.getFileCall file_id, .downloadCall file_path])

/-- TelegramClient::send_photo: build the multipart form (the fixed
image/jpeg mime string always parses) and run request_to_json on the
response to the sendPhoto call. -/
def send_photo (env : ProcEnv) : PResult Json :=
  request_to_json env.sendPhotoResp

/-- process_update: when the update has no "message" key, or its message has
no array-valued "photo" field, complete successfully with no outbound call.
Otherwise read chat.id and message_id (as_i64 unwraps panic on non-integers,
and indexing a missing key yields Null hence also a panic), take the LAST
element of the photo array (last().unwrap() panics on an empty array), read
its "file_id" string (object/map-index/as_str unwraps panic likewise), then
fetch the file and, only when that succeeded, submit it with sendPhoto bound
to the chat id and, as reply_to_message_id, the message id. Returns the
outcome paired with the outbound calls issued. -/
def process_update (update : Json) (env : ProcEnv) : PResult Unit × List ProcCall :=
  match update.getKey "message" with
  | none => (.ok (), [])
  | some message =>
    match message.vindex "photo" with
    | .jarr sizes =>
      match ((message.vindex "chat").vindex "id").as_i64 with
      | none => (.panicked, [])
      | some chat_id =>
        match (message.vindex "message_id").as_i64 with
        | none => (.panicked, [])
        | some reply_to =>
          match sizes.getLast? with
          | none => (.panicked, [])
          | some lastSize =>
            match lastSize.as_object with
            | none => (.panicked, [])
            | some sizeFields =>
              match jlookup sizeFields "file_id" with
              | none => (.panicked, [])
              | some fidJson =>
                match fidJson.as_str with
                | none => (.panicked, [])
                | some file_id =>
                  match get_file env file_id with
                  | (.ok _file, calls) =>
                    ((match send_photo env with
                      | .ok _ => .ok ()
                      | .err e => .err e
                      | .panicked => .panicked),
                     calls ++ [.sendPhotoCall chat_id reply_to])
                  | (.err e, calls) => (.err e, calls)
                  | (.panicked, calls) => (.panicked, calls)
    | _ => (.ok (), [])

/-- The fan-out of listen: one task per update, in batch order; task number i
processes update i under its own environment. -/
def spawnResults (envs : Nat → ProcEnv) : Nat → List Json → List (PResult Unit × List ProcCall)
  | _, [] => []
  | i, u :: rest => process_update u (envs i) :: spawnResults envs (i + 1) rest

/-- The observable outcome of one iteration of listen's loop:  the fetch
failed (its error is logged via the error macro and the loop continues with
the cursor unchanged), or the batch was fetched and every task joined (the
results are collected in order and each error among them is logged), or the
iteration panicked (a malformed response, or join.await.unwrap() on a
panicked task), which kills the listen task and hence the process. -/
inductive RoundOutcome where
  | fetchFailed (logged : CallError) (offset : Int)
  | processed (batch : List Json) (offset : Int)
      (results : List (PResult Unit × List ProcCall))
  | panicked

/-- One iteration of listen's loop, as a function of the cursor, the remote
response to this round's getUpdates call, and the environments of the tasks
it spawns. -/
def listen_round (offset : Int) (resp : HttpResponse) (envs : Nat → ProcEnv) : RoundOutcome :=
  match get_updates offset resp with
  | .err e => .fetchFailed e offset
  | .panicked => .panicked
  | .ok (response, offset2) =>
    match response with
    | .jarr arr =>
      if (spawnResults envs 0 arr).any (fun r => r.1.isPanicked) then .panicked
      else .processed arr offset2 (spawnResults envs 0 arr)
    | _ => .panicked

/-- The cursor after one round: the cursor returned by get_updates on
success, and the unchanged cursor otherwise (on an error listen continues
with the old cursor; on a panic the loop is dead and the value is moot). -/
def stepOffset (offset : Int) (resp : HttpResponse) : Int :=
  match get_updates offset resp with
  | .ok (_, offset2) => offset2
  | _ => offset

/-- The inputs of one poll round: the remote response to its getUpdates call
and the environments of the tasks it spawns. -/
structure Round where
  resp : HttpResponse
  envs : Nat → ProcEnv

/-- The successive cursor values of a run of listen: the cursor used by each
round's fetch, ending early when an iteration panics. -/
def runOffsets : Int → List Round → List Int
  | offset, [] => [offset]
  | offset, r :: rs =>
    match listen_round offset r.resp r.envs with
    | .panicked => [offset]
    | .fetchFailed _ offset2 => offset :: runOffsets offset2 rs
    | .processed _ offset2 _ => offset :: runOffsets offset2 rs

/-- The update_id of every element of a batch, when they all carry one. -/
def updateIds : List Json → Option (List Int)
  | [] => some []
  | u :: rest =>
    match (u.vindex "update_id").as_i64 with
    | none => none
    | some i =>
      match updateIds rest with
      | none => none
      | some is => some (i :: is)

/-- The maximum of a list of integers (0 for the empty list). -/
def maxId : List Int → Int
  | [] => 0
  | [x] => x
  | x :: y :: rest => max x (maxId (y :: rest))

/-- The remote protocol's guarantee about one getUpdates exchange at a given
requested cursor: when the call succeeds, every element of the batch carries
an integer update_id, the identifiers are monotonically increasing along the
batch, and none is below the requested cursor. -/
def protocolGuarantee (offset : Int) (resp : HttpResponse) : Prop :=
  ∀ arr offset2, get_updates offset resp = .ok (.jarr arr, offset2) →
    ∃ ids, updateIds arr = some ids ∧ List.Chain' (· ≤ ·) ids ∧ ∀ i ∈ ids, offset ≤ i

/-- The protocol guarantee holding along a whole run, each round judged at
the cursor the loop actually uses for it. -/
def protocolRunRounds : Int → List Round → Prop
  | _, [] => True
  | offset, r :: rs =>
    protocolGuarantee offset r.resp ∧ protocolRunRounds (stepOffset offset r.resp) rs

/-- The events of the scheduling trace of listen: issuing round k's
getUpdates call, spawning round k's task number idx, and collecting (joining)
that task's result. -/
inductive TraceEv where
  | fetchEv (round : Nat)
  | spawnEv (round : Nat) (idx : Nat)
  | doneEv (round : Nat) (idx : Nat)

/-- The round an event belongs to. -/
def TraceEv.round : TraceEv → Nat
  | .fetchEv k => k
  | .spawnEv k _ => k
  | .doneEv k _ => k

/-- The join phase of round k: listen awaits the join handles in spawn
order, logging each task error; a panicked task makes join.await.unwrap()
panic, ending the trace (the Bool is false when that happened). Task i + j
completes only after tasks i..i+j-1 were collected, matching the await
order. -/
def joinEvents (k : Nat) : Nat → List (PResult Unit) → List TraceEv × Bool
  | _, [] => ([], true)
  | i, r :: rest =>
    match r with
    | .panicked => ([], false)
    | _ =>
      (TraceEv.doneEv k i :: (joinEvents k (i + 1) rest).1, (joinEvents k (i + 1) rest).2)

/-- The remainder of the trace after a join phase: the loop continues into
the next iteration only when no joined task had panicked. -/
def contTrace (alive : Bool) (next : List TraceEv) : List TraceEv :=
  if alive then next else []

/-- The scheduling trace of a run of listen starting at round counter k:
each iteration issues its fetch; a failed fetch proceeds directly to the
next iteration; a malformed response panics (trace ends); a fetched batch
fans out one spawn per update, then joins all results, and only after the
last join does the next iteration's fetch appear. -/
def listenTrace (k : Nat) (offset : Int) : List Round → List TraceEv
  | [] => []
  | r :: rs =>
    TraceEv.fetchEv k ::
      (match get_updates offset r.resp with
       | .err _ => listenTrace (k + 1) offset rs
       | .panicked => []
       | .ok (response, offset2) =>
         match response with
         | .jarr arr =>
           (List.range arr.length).map (TraceEv.spawnEv k) ++
             (joinEvents k 0 ((spawnResults r.envs 0 arr).map Prod.fst)).1 ++
             contTrace (joinEvents k 0 ((spawnResults r.envs 0 arr).map Prod.fst)).2
               (listenTrace (k + 1) offset2 rs)
         | _ => [])

/-- Round barrier over a trace: wherever round K+1's fetch occurs, every
task spawned in round K has already been collected before that point. -/
def roundBarrierProp (tr : List TraceEv) : Prop :=
  ∀ pre post K, tr = pre ++ TraceEv.fetchEv (K + 1) :: post →
    ∀ idx, TraceEv.spawnEv K idx ∈ tr → TraceEv.doneEv K idx ∈ pre

/-- Fan out before join, within a round: wherever a round-K task's result is
collected, every round-K task has already been spawned before that point. -/
def fanOutProp (tr : List TraceEv) : Prop :=
  ∀ pre post K idx, tr = pre ++ TraceEv.doneEv K idx :: post →
    ∀ idx2, TraceEv.spawnEv K idx2 ∈ tr → TraceEv.spawnEv K idx2 ∈ pre

/-- A batch element carrying only an update_id, as in Scenario 1. -/
def bareUpdate (n : Int) : Json :=
  .jobj [("update_id", .jint n)]

/-- A successful getUpdates response whose result is the given batch. -/
def okBatch (batch : List Json) : HttpResponse :=
  .ok (.jobj [("ok", .jbool true), ("result", .jarr batch)])

/-- A task environment whose three calls all fail at transport level (the
concrete witnesses below use it where the calls do not matter). -/
def failEnv : ProcEnv :=
  { getFileResp := .transportError
    downloadResp := .error ()
    sendPhotoResp := .transportError }

/-- A task environment in which getFile resolves to a path, the download
returns bytes and sendPhoto succeeds. -/
def happyEnv : ProcEnv :=
  { getFileResp := .ok (.jobj [("ok", .jbool true),
      ("result", .jobj [("file_path", .jstr "photos/p.jpg")])])
    downloadResp := .ok [7, 7, 7]
    sendPhotoResp := .ok (.jobj [("ok", .jbool true), ("result", .jbool true)]) }

/-- An update carrying a photo message, as the bot expects one: update_id,
message with chat.id, message_id, and a photo array of size variants. -/
def photoUpdate (uid cid mid : Int) (sizes : List Json) : Json :=
  .jobj [("update_id", .jint uid),
         ("message", .jobj [("chat", .jobj [("id", .jint cid)]),
                            ("message_id", .jint mid),
                            ("photo", .jarr sizes)])]

/-- A photo size variant carrying a file_id. -/
def sizeVariant (fid : String) : Json :=
  .jobj [("file_id", .jstr fid), ("width", .jint 90)]

/-- A getUpdates exchange conforming to the expected shape: a transport
failure, or a body that is an object whose ok flag is a boolean and which,
when ok is true, carries a result array each of whose elements has an
integer update_id. -/
def wfUpdatesResponse : HttpResponse → Bool
  | .transportError => true
  | .httpError => true
  | .ok body =>
    match body with
    | .jobj fields =>
      match jlookup fields "ok" with
      | some (.jbool false) => true
      | some (.jbool true) =>
        match jlookup fields "result" with
        | some (.jarr arr) => arr.all (fun u => ((u.vindex "update_id").as_i64).isSome)
        | _ => false
      | _ => false
    | _ => false

/-! Helper lemmas. -/

/-- Indexing a value that does not carry the key yields Null. -/
theorem vindex_eq_null_of_hasKey_false {j : Json} {key : String}
    (h : j.hasKey key = false) : j.vindex key = .null := by
  unfold Json.hasKey at h
  unfold Json.vindex
  cases hk : j.getKey key with
  | none => rfl
  | some v => rw [hk] at h; simp [Option.isSome] at h

/-- The last element of a list is a member. -/
theorem mem_of_getLast?_eq {α : Type} {l : List α} {a : α}
    (h : l.getLast? = some a) : a ∈ l := by
  induction l with
  | nil => simp [List.getLast?] at h
  | cons x xs ih =>
    cases xs with
    | nil =>
      simp [List.getLast?] at h
      simp [h]
    | cons y ys =>
      rw [List.getLast?_cons_cons] at h
      exact List.mem_cons_of_mem _ (ih h)

/-! C9. -/

/-- C9: TelegramClient::new initializes the cursor to 0, so the first
getUpdates request of a process run carries offset 0 in its parameters. -/
theorem c9_initial_cursor_zero (token : String) :
    (TelegramClient.new token).offset = 0 ∧
    (getUpdatesParams (TelegramClient.new token).offset).vindex "offset" = .jint 0 :=
  ⟨rfl, rfl⟩

/-! C8. -/

/-- C8: every outbound call runs under a bounded 10-second timeout, except
the getUpdates call, whose 90-second timeout strictly exceeds the 60-second
long-poll wait it requests from the remote side. -/
theorem c8_per_call_timeouts :
    requestTimeoutSecs .callGetUpdates = 90 ∧
    getUpdatesWaitSecs = 60 ∧
    getUpdatesWaitSecs < requestTimeoutSecs .callGetUpdates ∧
    (∀ c, c ≠ OutboundCall.callGetUpdates → requestTimeoutSecs c = 10) ∧
    (∀ offset, (getUpdatesParams offset).vindex "timeout" = .jint 60) := by
  refine ⟨rfl, rfl, by decide, ?_, fun offset => rfl⟩
  intro c h
  cases c with
  | callGetUpdates => exact absurd rfl h
  | callGetFile => rfl
  | callFileDownload => rfl
  | callSendPhoto => rfl

/-- Witness for c8_per_call_timeouts: the getFile call is governed by the
10-second timeout. -/
theorem c8_per_call_timeouts_witness :
    requestTimeoutSecs OutboundCall.callGetFile = 10 :=
  c8_per_call_timeouts.2.2.2.1 OutboundCall.callGetFile
    (fun h => OutboundCall.noConfusion h)

/-! C6. -/

/-- C6: an update whose message carries no photo field completes
successfully at once with no outbound call. -/
theorem c6_noop_events (update m : Json) (env : ProcEnv)
    (hm : update.getKey "message" = some m)
    (hnophoto : m.hasKey "photo" = false) :
    process_update update env = (.ok (), []) := by
  unfold process_update
  simp only [hm, vindex_eq_null_of_hasKey_false hnophoto]

/-- Witness for c6_noop_events: a concrete text-only message is a no-op. -/
theorem c6_noop_events_witness :
    process_update (.jobj [("update_id", .jint 7),
      ("message", .jobj [("text", .jstr "hi")])]) failEnv = (.ok (), []) :=
  c6_noop_events _ (.jobj [("text", .jstr "hi")]) failEnv rfl rfl

/-- The calls issued by get_file always begin with the getFile call itself. -/
theorem get_file_calls_shape (env : ProcEnv) (fid : String) :
    ∃ rest, (get_file env fid).2 = ProcCall.getFileCall fid :: rest := by
  unfold get_file
  repeat' split
  all_goals exact ⟨_, rfl⟩

/-! C10. -/

/-- C10: a message whose photo field is an empty array makes the processing
task panic (last().unwrap() on the empty size list), with no outbound call;
when the array is non-empty, the task uses the file reference of its LAST
element, so the first outbound call is getFile on that file_id. -/
theorem c10_empty_photo_panics (update m lastSize : Json) (env : ProcEnv)
    (sizes : List Json) (sizeFields : List (String × Json)) (cid rto : Int) (fid : String)
    (hm : update.getKey "message" = some m) :
    (m.vindex "photo" = .jarr [] → process_update update env = (.panicked, [])) ∧
    (m.vindex "photo" = .jarr sizes →
     ((m.vindex "chat").vindex "id").as_i64 = some cid →
     (m.vindex "message_id").as_i64 = some rto →
     sizes.getLast? = some lastSize →
     lastSize.as_object = some sizeFields →
     jlookup sizeFields "file_id" = some (.jstr fid) →
     (process_update update env).2.head? = some (.getFileCall fid)) := by
  constructor
  · intro hempty
    unfold process_update
    simp only [hm, hempty]
    split
    · rfl
    · split
      · rfl
      · rfl
  · intro hsizes h1 h2 hlast hobj hfid
    unfold process_update
    simp only [hm, hsizes, h1, h2, hlast, hobj, hfid, Json.as_str]
    obtain ⟨rest, hshape⟩ := get_file_calls_shape env fid
    cases hg : get_file env fid with
    | mk res calls =>
      rw [hg] at hshape
      cases res with
      | ok fileBytes => simp at hshape; simp [hshape]
      | err e => simp at hshape; simp [hshape]
      | panicked => simp at hshape; simp [hshape]

/-- Witness for c10_empty_photo_panics: both parts at concrete inputs, the
first on an update with an empty photo array, shown directly. -/
theorem c10_empty_photo_panics_witness :
    process_update (photoUpdate 1 5 6 []) happyEnv = (.panicked, []) :=
  (c10_empty_photo_panics (photoUpdate 1 5 6 []) (Json.jobj
      [("chat", .jobj [("id", .jint 5)]), ("message_id", .jint 6),
       ("photo", .jarr [])])
    Json.null happyEnv [] [] 5 6 "f" rfl).1 rfl

/-! C5. -/

/-- C5: when the fetch of a round fails, the error is logged, the cursor is
left unchanged, no processing task is spawned, and the loop proceeds
directly to the next round's fetch (the next trace event is that fetch). -/
theorem c5_failed_poll_atomic (offset : Int) (resp : HttpResponse) (envs : Nat → ProcEnv)
    (e : CallError) (h : get_updates offset resp = .err e) :
    listen_round offset resp envs = .fetchFailed e offset ∧
    stepOffset offset resp = offset ∧
    (∀ k rs, listenTrace k offset ({ resp := resp, envs := envs } :: rs) =
      TraceEv.fetchEv k :: listenTrace (k + 1) offset rs) ∧
    (∀ rs, runOffsets offset ({ resp := resp, envs := envs } :: rs) =
      offset :: runOffsets offset rs) := by
  refine ⟨?_, ?_, ?_, ?_⟩
  · simp only [listen_round, h]
  · simp only [stepOffset, h]
  · intro k rs
    simp only [listenTrace, h]
  · intro rs
    simp only [runOffsets, listen_round, h]

/-- Witness for c5_failed_poll_atomic: a transport failure at cursor 5. -/
theorem c5_failed_poll_atomic_witness :
    listen_round 5 HttpResponse.transportError (fun _ => failEnv) =
      .fetchFailed .transport 5 ∧
    stepOffset 5 HttpResponse.transportError = 5 :=
  ⟨(c5_failed_poll_atomic 5 .transportError (fun _ => failEnv) .transport rfl).1,
   (c5_failed_poll_atomic 5 .transportError (fun _ => failEnv) .transport rfl).2.1⟩

/-! C4. -/

/-- C4 counterexample: a remote response whose body is the JSON value null
(a syntactically valid response shape) makes the getUpdates call panic
(the panic arm of request_to_json), so the call does not merely succeed or
fail with a transport or remote error for every response shape. -/
theorem c4_counterexample :
    get_updates 0 (HttpResponse.ok Json.null) = .panicked := rfl

/-- C4 amended: for every response CONFORMING to the expected shape (an
object with a boolean ok flag and, when ok is true, a result array whose
elements carry integer update_id fields), the getUpdates call either
succeeds or fails with the transport error or a remote error carrying the
raw payload; non-conforming bodies instead panic. -/
theorem c4_fetch_total_on_wellformed (offset : Int) (resp : HttpResponse)
    (h : wfUpdatesResponse resp = true) :
    (∃ v offset2, get_updates offset resp = .ok (v, offset2)) ∨
    get_updates offset resp = .err .transport ∨
    (∃ p, get_updates offset resp = .err (.remote p)) := by
  cases resp with
  | transportError => exact Or.inr (Or.inl rfl)
  | httpError => exact Or.inr (Or.inl rfl)
  | ok body =>
    cases body with
    | jobj fields =>
      simp only [wfUpdatesResponse] at h
      cases hok : jlookup fields "ok" with
      | none => rw [hok] at h; simp at h
      | some okv =>
        rw [hok] at h
        cases okv with
        | jbool b =>
          cases b with
          | false =>
            refine Or.inr (Or.inr ⟨.jobj fields, ?_⟩)
            simp only [get_updates, request_to_json, hok]
          | true =>
            cases hres : jlookup fields "result" with
            | none => rw [hres] at h; simp at h
            | some resv =>
              rw [hres] at h
              cases resv with
              | jarr arr =>
                refine Or.inl ?_
                simp only [get_updates, request_to_json, hok, hres, Json.as_array]
                cases hlast : arr.getLast? with
                | none => exact ⟨.jarr arr, offset, rfl⟩
                | some last =>
                  have hmem : last ∈ arr := mem_of_getLast?_eq hlast
                  have hid : ((last.vindex "update_id").as_i64).isSome := by
                    simp only [List.all_eq_true] at h
                    simpa using h last hmem
                  obtain ⟨uid, huid⟩ := Option.isSome_iff_exists.mp hid
                  refine ⟨.jarr arr, uid + 1, ?_⟩
                  simp [huid]
              | null => simp at h
              | jbool c => simp at h
              | jint n => simp at h
              | jstr s => simp at h
              | jobj fs => simp at h
        | null => simp at h
        | jint n => simp at h
        | jstr s => simp at h
        | jarr xs => simp at h
        | jobj fs => simp at h
    | null => simp [wfUpdatesResponse] at h
    | jbool b => simp [wfUpdatesResponse] at h
    | jint n => simp [wfUpdatesResponse] at h
    | jstr s => simp [wfUpdatesResponse] at h
    | jarr xs => simp [wfUpdatesResponse] at h

/-- Witness for c4_fetch_total_on_wellformed: a conforming one-element batch
at cursor 7. -/
theorem c4_fetch_total_on_wellformed_witness :
    (∃ v offset2, get_updates 7 (okBatch [bareUpdate 3]) = .ok (v, offset2)) ∨
    get_updates 7 (okBatch [bareUpdate 3]) = .err .transport ∨
    (∃ p, get_updates 7 (okBatch [bareUpdate 3]) = .err (.remote p)) :=
  c4_fetch_total_on_wellformed 7 (okBatch [bareUpdate 3]) rfl

/-- get_file never issues a submit call: its trace holds only the getFile
call and possibly the download. -/
theorem get_file_no_send (env : ProcEnv) (fid : String) :
    ∀ c r, ProcCall.sendPhotoCall c r ∉ (get_file env fid).2 := by
  intro c r
  unfold get_file
  repeat' split
  all_goals simp

/-! C7. -/

/-- C7: for an event with a payload reference, the task first issues the
artifact fetch; when the fetch succeeds the submit call bound to the chat id
and the message id follows it, and when the fetch fails the task ends with
that error and no submit call is ever issued. -/
theorem c7_fetch_before_submit (update m lastSize : Json) (env : ProcEnv)
    (sizes : List Json) (sizeFields : List (String × Json)) (cid rto : Int) (fid : String)
    (hm : update.getKey "message" = some m)
    (hsizes : m.vindex "photo" = .jarr sizes)
    (h1 : ((m.vindex "chat").vindex "id").as_i64 = some cid)
    (h2 : (m.vindex "message_id").as_i64 = some rto)
    (hlast : sizes.getLast? = some lastSize)
    (hobj : lastSize.as_object = some sizeFields)
    (hfid : jlookup sizeFields "file_id" = some (.jstr fid)) :
    (process_update update env).2.head? = some (.getFileCall fid) ∧
    (∀ b calls, get_file env fid = (.ok b, calls) →
      (process_update update env).2 = calls ++ [ProcCall.sendPhotoCall cid rto]) ∧
    (∀ e calls, get_file env fid = (.err e, calls) →
      process_update update env = (.err e, calls) ∧
      ∀ c r, ProcCall.sendPhotoCall c r ∉ (process_update update env).2) := by
  unfold process_update
  simp only [hm, hsizes, h1, h2, hlast, hobj, hfid, Json.as_str]
  refine ⟨?_, ?_, ?_⟩
  · obtain ⟨rest, hshape⟩ := get_file_calls_shape env fid
    cases hg : get_file env fid with
    | mk res calls =>
      rw [hg] at hshape
      cases res with
      | ok b => simp at hshape; simp [hshape]
      | err e => simp at hshape; simp [hshape]
      | panicked => simp at hshape; simp [hshape]
  · intro b calls hg
    rw [hg]
  · intro e calls hg
    have hns : ∀ c r, ProcCall.sendPhotoCall c r ∉ calls := by
      intro c r
      have := get_file_no_send env fid c r
      rw [hg] at this
      simpa using this
    rw [hg]
    exact ⟨rfl, hns⟩

/-- Witness for c7_fetch_before_submit: a two-variant photo message under
the happy environment fetches the LAST variant first. -/
theorem c7_fetch_before_submit_witness :
    (process_update (photoUpdate 1 5 6 [sizeVariant "a", sizeVariant "b"]) happyEnv).2.head? =
      some (.getFileCall "b") :=
  (c7_fetch_before_submit (photoUpdate 1 5 6 [sizeVariant "a", sizeVariant "b"])
    (.jobj [("chat", .jobj [("id", .jint 5)]), ("message_id", .jint 6),
            ("photo", .jarr [sizeVariant "a", sizeVariant "b"])])
    (sizeVariant "b") happyEnv [sizeVariant "a", sizeVariant "b"]
    [("file_id", .jstr "b"), ("width", .jint 90)] 5 6 "b"
    rfl rfl rfl rfl rfl rfl rfl).1

/-! C1 helpers. -/

/-- When every batch element has an id, the last element's id is the last
identifier in the id list. -/
theorem updateIds_getLast : ∀ {arr : List Json} {ids : List Int} {last : Json},
    updateIds arr = some ids → arr.getLast? = some last →
    ∃ uid, (last.vindex "update_id").as_i64 = some uid ∧ ids.getLast? = some uid := by
  intro arr
  induction arr with
  | nil => intro ids last h hl; simp at hl
  | cons u rest ih =>
    intro ids last h hl
    unfold updateIds at h
    cases hu : (u.vindex "update_id").as_i64 with
    | none => rw [hu] at h; simp at h
    | some i =>
      rw [hu] at h
      cases hrest : updateIds rest with
      | none => rw [hrest] at h; simp at h
      | some is =>
        rw [hrest] at h
        simp at h
        subst h
        cases rest with
        | nil =>
          simp at hl
          subst hl
          have : is = [] := by simpa [updateIds] using hrest
          subst this
          exact ⟨i, hu, rfl⟩
        | cons v vs =>
          rw [List.getLast?_cons_cons] at hl
          obtain ⟨uid, huid, hlast2⟩ := ih hrest hl
          refine ⟨uid, huid, ?_⟩
          cases is with
          | nil => simp at hlast2
          | cons b bs => rw [List.getLast?_cons_cons]; exact hlast2

/-- Along a monotonically increasing chain of identifiers, the last one is
the maximum and bounds every member. -/
theorem chain_last_max : ∀ {ids : List Int} {m : Int},
    List.Chain' (· ≤ ·) ids → ids.getLast? = some m →
    maxId ids = m ∧ ∀ x ∈ ids, x ≤ m := by
  intro ids
  induction ids with
  | nil => intro m _ hl; simp at hl
  | cons x rest ih =>
    intro m hc hl
    cases rest with
    | nil =>
      simp at hl
      subst hl
      exact ⟨rfl, by simp⟩
    | cons y vs =>
      rw [List.getLast?_cons_cons] at hl
      have hxy : x ≤ y := (List.chain'_cons.mp hc).1
      obtain ⟨hmax, hall⟩ := ih (List.chain'_cons.mp hc).2 hl
      have hym : y ≤ m := hall y (by simp)
      constructor
      · show max x (maxId (y :: vs)) = m
        rw [hmax]
        exact max_eq_right (le_trans hxy hym)
      · intro z hz
        rcases List.mem_cons.mp hz with rfl | hz2
        · exact le_trans hxy hym
        · exact hall z hz2

/-- Inversion of a successful get_updates: the returned value is the result
array, and the returned cursor is the old one for an empty batch and the
last element's update_id plus one otherwise. -/
theorem get_updates_ok_inv {offset : Int} {resp : HttpResponse} {v : Json} {o2 : Int}
    (h : get_updates offset resp = .ok (v, o2)) :
    ∃ arr, v = .jarr arr ∧
      ((arr.getLast? = none ∧ o2 = offset) ∨
       ∃ last uid, arr.getLast? = some last ∧
         (last.vindex "update_id").as_i64 = some uid ∧ o2 = uid + 1) := by
  unfold get_updates at h
  cases hr : request_to_json resp with
  | err e => rw [hr] at h; simp at h
  | panicked => rw [hr] at h; simp at h
  | ok response =>
    rw [hr] at h
    cases response with
    | jarr arr =>
      simp only [Json.as_array] at h
      cases hlast : arr.getLast? with
      | none =>
        rw [hlast] at h
        simp at h
        exact ⟨arr, h.1.symm, Or.inl ⟨hlast, h.2.symm⟩⟩
      | some last =>
        rw [hlast] at h
        simp at h
        cases hu : (last.vindex "update_id").as_i64 with
        | none => rw [hu] at h; simp at h
        | some uid =>
          rw [hu] at h
          simp at h
          exact ⟨arr, h.1.symm, Or.inr ⟨last, uid, hlast, hu, h.2.symm⟩⟩
    | null => simp [Json.as_array] at h
    | jbool b => simp [Json.as_array] at h
    | jint n => simp [Json.as_array] at h
    | jstr s => simp [Json.as_array] at h
    | jobj fs => simp [Json.as_array] at h

/-- Under the protocol guarantee the cursor cannot move backwards in one
round. -/
theorem step_mono (offset : Int) (resp : HttpResponse)
    (hg : protocolGuarantee offset resp) : offset ≤ stepOffset offset resp := by
  cases hr : get_updates offset resp with
  | err e => simp [stepOffset, hr]
  | panicked => simp [stepOffset, hr]
  | ok p =>
    obtain ⟨v, o2⟩ := p
    have hstep : stepOffset offset resp = o2 := by simp [stepOffset, hr]
    rw [hstep]
    obtain ⟨arr, rfl, hcase⟩ := get_updates_ok_inv hr
    obtain ⟨ids, hids, _hchain, hge⟩ := hg arr o2 hr
    rcases hcase with ⟨_, ho⟩ | ⟨last, uid, hlast, huid, ho⟩
    · omega
    · obtain ⟨uid2, huid2, hlast2⟩ := updateIds_getLast hids hlast
      rw [huid] at huid2
      have huideq : uid = uid2 := by simpa using huid2
      have hle : offset ≤ uid2 := hge uid2 (mem_of_getLast?_eq hlast2)
      omega

/-- A run's cursor list always begins with the starting cursor. -/
theorem runOffsets_head (offset : Int) (rounds : List Round) :
    ∃ tail, runOffsets offset rounds = offset :: tail := by
  cases rounds with
  | nil => exact ⟨[], rfl⟩
  | cons r rs =>
    unfold runOffsets
    cases h : listen_round offset r.resp r.envs with
    | panicked => exact ⟨[], rfl⟩
    | fetchFailed e o2 => exact ⟨runOffsets o2 rs, rfl⟩
    | processed b o2 res => exact ⟨runOffsets o2 rs, rfl⟩

/-- The cursor a round hands to the next one is exactly stepOffset. -/
theorem listen_round_offset (offset : Int) (resp : HttpResponse) (envs : Nat → ProcEnv) :
    (∀ e o2, listen_round offset resp envs = .fetchFailed e o2 → o2 = stepOffset offset resp) ∧
    (∀ b o2 res, listen_round offset resp envs = .processed b o2 res → o2 = stepOffset offset resp) := by
  unfold listen_round stepOffset
  cases hr : get_updates offset resp with
  | err e => exact ⟨fun e2 o2 h => by simp at h; exact h.2.symm, fun b o2 res h => by simp at h⟩
  | panicked => exact ⟨fun e2 o2 h => by simp at h, fun b o2 res h => by simp at h⟩
  | ok p =>
    obtain ⟨v, o3⟩ := p
    cases v with
    | jarr arr =>
      constructor
      · intro e2 o2 h
        by_cases hp : (spawnResults envs 0 arr).any (fun r => r.1.isPanicked)
        · simp [hp] at h
        · simp [hp] at h
      · intro b o2 res h
        by_cases hp : (spawnResults envs 0 arr).any (fun r => r.1.isPanicked)
        · simp [hp] at h
        · simp [hp] at h
          exact h.2.1.symm
    | null => exact ⟨fun e2 o2 h => by simp at h, fun b o2 res h => by simp at h⟩
    | jbool c => exact ⟨fun e2 o2 h => by simp at h, fun b o2 res h => by simp at h⟩
    | jint n => exact ⟨fun e2 o2 h => by simp at h, fun b o2 res h => by simp at h⟩
    | jstr s => exact ⟨fun e2 o2 h => by simp at h, fun b o2 res h => by simp at h⟩
    | jobj fs => exact ⟨fun e2 o2 h => by simp at h, fun b o2 res h => by simp at h⟩

/-- Under the protocol guarantee the successive cursors of a whole run form
a monotonically non-decreasing chain. -/
theorem runOffsets_chain (rounds : List Round) : ∀ offset : Int,
    protocolRunRounds offset rounds →
    List.Chain' (· ≤ ·) (runOffsets offset rounds) := by
  induction rounds with
  | nil => intro offset _; simp [runOffsets]
  | cons r rs ih =>
    intro offset h
    obtain ⟨hg, hrest⟩ := h
    have hstep : offset ≤ stepOffset offset r.resp := step_mono offset r.resp hg
    unfold runOffsets
    cases hlr : listen_round offset r.resp r.envs with
    | panicked => simp
    | fetchFailed e o2 =>
      obtain rfl := (listen_round_offset offset r.resp r.envs).1 e o2 hlr
      obtain ⟨tail, htail⟩ := runOffsets_head (stepOffset offset r.resp) rs
      rw [List.chain'_cons']
      refine ⟨?_, ih _ hrest⟩
      intro y hy
      rw [htail] at hy
      simp at hy
      omega
    | processed b o2 res =>
      obtain rfl := (listen_round_offset offset r.resp r.envs).2 b o2 res hlr
      obtain ⟨tail, htail⟩ := runOffsets_head (stepOffset offset r.resp) rs
      rw [List.chain'_cons']
      refine ⟨?_, ih _ hrest⟩
      intro y hy
      rw [htail] at hy
      simp at hy
      omega

/-! C1. -/

/-- C1 counterexample: a two-round run, each batch monotonically increasing
WITHIN itself, in which the cursor regresses from 10 to 4: round one returns
id 9 (cursor becomes 10), round two returns the single id 3 (cursor becomes
4).  Within-batch monotonicity alone therefore does not make the cursor
non-decreasing across rounds. -/
theorem c1_cursor_regression_counterexample :
    runOffsets 0 [{ resp := okBatch [bareUpdate 9], envs := fun _ => failEnv },
                  { resp := okBatch [bareUpdate 3], envs := fun _ => failEnv }] =
      [0, 10, 4] ∧
    updateIds [bareUpdate 9] = some [9] ∧ List.Chain' (· ≤ ·) [(9 : Int)] ∧
    updateIds [bareUpdate 3] = some [3] ∧ List.Chain' (· ≤ ·) [(3 : Int)] ∧
    ¬ (10 : Int) ≤ 4 :=
  ⟨rfl, rfl, List.chain'_singleton 9, rfl, List.chain'_singleton 3, by decide⟩

/-- C1 amended: across rounds the cursor is unchanged by a failed fetch and
by an empty batch; on a non-empty batch with monotonically increasing
identifiers it becomes one plus the batch maximum; and under the full remote
protocol guarantee — identifiers monotonically increasing within the batch
AND at least the requested cursor — it never decreases, per round and along
any whole run. -/
theorem c1_cursor_monotonicity (offset : Int) (resp : HttpResponse) :
    (∀ e, get_updates offset resp = .err e → stepOffset offset resp = offset) ∧
    (∀ o2, get_updates offset resp = .ok (.jarr [], o2) → o2 = offset) ∧
    (∀ arr ids o2, get_updates offset resp = .ok (.jarr arr, o2) → arr ≠ [] →
      updateIds arr = some ids → List.Chain' (· ≤ ·) ids → o2 = maxId ids + 1) ∧
    (protocolGuarantee offset resp → offset ≤ stepOffset offset resp) ∧
    (∀ rounds : List Round, protocolRunRounds offset rounds →
      List.Chain' (· ≤ ·) (runOffsets offset rounds)) := by
  refine ⟨?_, ?_, ?_, step_mono offset resp, fun rounds h => runOffsets_chain rounds offset h⟩
  · intro e h
    unfold stepOffset
    rw [h]
  · intro o2 h
    obtain ⟨arr, harr, hcase⟩ := get_updates_ok_inv h
    obtain rfl : arr = [] := by
      cases arr with
      | nil => rfl
      | cons x xs => simp at harr
    rcases hcase with ⟨_, ho⟩ | ⟨last, uid, hlast, _, _⟩
    · exact ho
    · simp at hlast
  · intro arr ids o2 h hne hids hchain
    obtain ⟨arr2, harr, hcase⟩ := get_updates_ok_inv h
    obtain rfl : arr2 = arr := by
      have h2 : arr = arr2 := by simpa using harr
      exact h2.symm
    rcases hcase with ⟨hnone, ho⟩ | ⟨last, uid, hlast, huid, ho⟩
    · exact absurd (List.getLast?_eq_none_iff.mp hnone) hne
    · obtain ⟨uid2, huid2, hlast2⟩ := updateIds_getLast hids hlast
      rw [huid] at huid2
      have huideq : uid = uid2 := by simpa using huid2
      have hmax := (chain_last_max hchain hlast2).1
      omega

/-- Witness for c1_cursor_monotonicity: the Scenario-1 batch with ids
101, 102, 105 at cursor 100 moves the cursor to 106 = max + 1 ≥ 100. -/
theorem c1_cursor_monotonicity_witness :
    get_updates 100 (okBatch [bareUpdate 101, bareUpdate 102, bareUpdate 105]) =
      .ok (.jarr [bareUpdate 101, bareUpdate 102, bareUpdate 105], 106) ∧
    (106 : Int) = maxId [101, 102, 105] + 1 ∧
    (100 : Int) ≤ stepOffset 100 (okBatch [bareUpdate 101, bareUpdate 102, bareUpdate 105]) := by
  have hguar : protocolGuarantee 100 (okBatch [bareUpdate 101, bareUpdate 102, bareUpdate 105]) := by
    intro arr o2 h
    rw [show get_updates 100 (okBatch [bareUpdate 101, bareUpdate 102, bareUpdate 105]) =
        .ok (.jarr [bareUpdate 101, bareUpdate 102, bareUpdate 105], 106) from rfl] at h
    simp at h
    obtain ⟨rfl, rfl⟩ := h
    exact ⟨[101, 102, 105], rfl, by simp, by decide⟩
  refine ⟨rfl, ?_, (c1_cursor_monotonicity 100
    (okBatch [bareUpdate 101, bareUpdate 102, bareUpdate 105])).2.2.2.1 hguar⟩
  exact (c1_cursor_monotonicity 100 (okBatch [bareUpdate 101, bareUpdate 102, bareUpdate 105])).2.2.1
    [bareUpdate 101, bareUpdate 102, bareUpdate 105] [101, 102, 105] 106 rfl
    (by simp) rfl (by simp)

/-! C3 helpers. -/

/-- A result known to be ok is not a panic. -/
theorem not_panicked_of_eq_ok {α : Type} {r : PResult α} {a : α} (h : r = .ok a) :
    r ≠ .panicked := by
  subst h
  intro hc
  exact PResult.noConfusion hc

/-- A result known to be an error is not a panic. -/
theorem not_panicked_of_eq_err {α : Type} {r : PResult α} {e : CallError} (h : r = .err e) :
    r ≠ .panicked := by
  subst h
  intro hc
  exact PResult.noConfusion hc

/-- Fan-out spawns exactly one task per batch element. -/
theorem spawnResults_length (envs : Nat → ProcEnv) :
    ∀ (i : Nat) (arr : List Json), (spawnResults envs i arr).length = arr.length := by
  intro i arr
  induction arr generalizing i with
  | nil => rfl
  | cons u rest ih => simp [spawnResults, ih]

/-- Task number j of the fan-out processes batch element j under its own
environment, independently of every other task. -/
theorem spawnResults_get (envs : Nat → ProcEnv) :
    ∀ (arr : List Json) (i j : Nat) (u : Json), arr[j]? = some u →
      (spawnResults envs i arr)[j]? = some (process_update u (envs (i + j))) := by
  intro arr
  induction arr with
  | nil => intro i j u h; simp at h
  | cons v rest ih =>
    intro i j u h
    cases j with
    | zero =>
      simp at h
      subst h
      simp [spawnResults]
    | succ j2 =>
      rw [List.getElem?_cons_succ] at h
      have step : (spawnResults envs i (v :: rest))[j2 + 1]? =
          (spawnResults envs (i + 1) rest)[j2]? := by
        show (process_update v (envs i) :: spawnResults envs (i + 1) rest)[j2 + 1]? = _
        rw [List.getElem?_cons_succ]
      rw [step]
      have heq : i + 1 + j2 = i + (j2 + 1) := by omega
      rw [← heq]
      exact ih (i + 1) j2 u h

/-- When no task's outcome is a panic, the any-panicked check of the join
loop is false. -/
theorem spawnResults_nopanic (envs : Nat → ProcEnv) :
    ∀ (arr : List Json) (i : Nat),
      (∀ (j : Nat) (u : Json), arr[j]? = some u →
        (process_update u (envs (i + j))).1 ≠ .panicked) →
      (spawnResults envs i arr).any (fun r => r.1.isPanicked) = false := by
  intro arr
  induction arr with
  | nil => intro i _; rfl
  | cons v rest ih =>
    intro i h
    show ((process_update v (envs i)).1.isPanicked ||
      (spawnResults envs (i + 1) rest).any (fun r => r.1.isPanicked)) = false
    have h0 : (process_update v (envs i)).1 ≠ .panicked := by
      have := h 0 v (by simp)
      simpa using this
    have h1 : (process_update v (envs i)).1.isPanicked = false := by
      cases hp : (process_update v (envs i)).1 with
      | ok a => rfl
      | err e => rfl
      | panicked => exact absurd hp h0
    have h2 : (spawnResults envs (i + 1) rest).any (fun r => r.1.isPanicked) = false := by
      apply ih
      intro j u hj
      have : i + 1 + j = i + (j + 1) := by omega
      rw [this]
      exact h (j + 1) u (by rw [List.getElem?_cons_succ]; exact hj)
    rw [h1, h2]
    rfl

/-! C3. -/

/-- C3: in a round whose fetch succeeded and whose tasks return (possibly
with errors, but without panicking), the loop collects every task's result —
the errors among them are logged and caught at the join — and a failing task
does not change the cursor (it is fixed by the fetch alone), does not affect
any other task's result (task j's outcome is a function of event j and its
own environment only), is spawned exactly once per event (no retry), and
does not stop the loop (the run continues into the remaining rounds). -/
theorem c3_failure_isolation (offset : Int) (resp : HttpResponse) (envs : Nat → ProcEnv)
    (arr : List Json) (o2 : Int)
    (hok : get_updates offset resp = .ok (.jarr arr, o2))
    (hnp : ∀ (i : Nat) (u : Json), arr[i]? = some u →
      (process_update u (envs i)).1 ≠ .panicked) :
    listen_round offset resp envs = .processed arr o2 (spawnResults envs 0 arr) ∧
    (spawnResults envs 0 arr).length = arr.length ∧
    (∀ (i : Nat) (u : Json), arr[i]? = some u →
      (spawnResults envs 0 arr)[i]? = some (process_update u (envs i))) ∧
    stepOffset offset resp = o2 ∧
    (∀ rs, runOffsets offset ({ resp := resp, envs := envs } :: rs) =
      offset :: runOffsets o2 rs) := by
  have hany : (spawnResults envs 0 arr).any (fun r => r.1.isPanicked) = false := by
    apply spawnResults_nopanic
    intro j u hj
    simpa using hnp j u hj
  have hround : listen_round offset resp envs = .processed arr o2 (spawnResults envs 0 arr) := by
    simp [listen_round, hok, hany]
  refine ⟨hround, spawnResults_length envs 0 arr, ?_, ?_, ?_⟩
  · intro i u hi
    simpa using spawnResults_get envs arr 0 i u hi
  · simp [stepOffset, hok]
  · intro rs
    simp [runOffsets, hround]

/-- Witness for c3_failure_isolation: a two-event batch in which the second
task fails with a transport error while the first is a no-op; the round
still completes with both results collected and the cursor at 3. -/
theorem c3_failure_isolation_witness :
    listen_round 0 (okBatch [bareUpdate 1, photoUpdate 2 5 6 [sizeVariant "a"]])
      (fun _ => failEnv) =
    .processed [bareUpdate 1, photoUpdate 2 5 6 [sizeVariant "a"]] 3
      (spawnResults (fun _ => failEnv) 0
        [bareUpdate 1, photoUpdate 2 5 6 [sizeVariant "a"]]) :=
  (c3_failure_isolation 0 (okBatch [bareUpdate 1, photoUpdate 2 5 6 [sizeVariant "a"]])
    (fun _ => failEnv) [bareUpdate 1, photoUpdate 2 5 6 [sizeVariant "a"]] 3 rfl
    (by
      intro i u hi
      cases i with
      | zero =>
        simp only [List.getElem?_cons_zero, Option.some.injEq] at hi
        subst hi
        exact not_panicked_of_eq_ok (a := ()) rfl
      | succ i2 =>
        cases i2 with
        | zero =>
          simp only [List.getElem?_cons_succ, List.getElem?_cons_zero,
            Option.some.injEq] at hi
          subst hi
          exact not_panicked_of_eq_err (e := .transport) rfl
        | succ i3 => simp at hi)).1

/-! C2 helpers. -/

/-- Whatever follows a join phase is part of the continuation trace. -/
theorem contTrace_subset {alive : Bool} {next : List TraceEv} (ev : TraceEv)
    (h : ev ∈ contTrace alive next) : ev ∈ next := by
  cases alive with
  | false => simp [contTrace] at h
  | true => simpa [contTrace] using h

/-- A continuation that contains an occurrence is the live continuation. -/
theorem contTrace_eq_cons {alive : Bool} {next r1 post : List TraceEv} {a : TraceEv}
    (h : contTrace alive next = r1 ++ a :: post) :
    alive = true ∧ next = r1 ++ a :: post := by
  cases alive with
  | false =>
    exfalso
    have : ([] : List TraceEv) = r1 ++ a :: post := h
    exact absurd this.symm (by simp)
  | true => exact ⟨rfl, h⟩

/-- Members of the spawn segment of round k are its spawn events. -/
theorem mem_spawnSegment {k n : Nat} {ev : TraceEv}
    (h : ev ∈ (List.range n).map (TraceEv.spawnEv k)) :
    ∃ i, i < n ∧ ev = TraceEv.spawnEv k i := by
  obtain ⟨i, hi, hev⟩ := List.mem_map.mp h
  exact ⟨i, List.mem_range.mp hi, hev.symm⟩

/-- Every event of a join phase of round k is a done event of round k. -/
theorem joinEvents_mem_done : ∀ (l : List (PResult Unit)) (k i : Nat) (ev : TraceEv),
    ev ∈ (joinEvents k i l).1 → ∃ j, ev = TraceEv.doneEv k j := by
  intro l
  induction l with
  | nil => intro k i ev h; simp [joinEvents] at h
  | cons r rest ih =>
    intro k i ev h
    cases r with
    | panicked => simp [joinEvents] at h
    | ok a =>
      rw [show (joinEvents k i (PResult.ok a :: rest)).1 =
        TraceEv.doneEv k i :: (joinEvents k (i + 1) rest).1 from rfl] at h
      rcases List.mem_cons.mp h with rfl | h2
      · exact ⟨i, rfl⟩
      · exact ih k (i + 1) ev h2
    | err e =>
      rw [show (joinEvents k i (PResult.err e :: rest)).1 =
        TraceEv.doneEv k i :: (joinEvents k (i + 1) rest).1 from rfl] at h
      rcases List.mem_cons.mp h with rfl | h2
      · exact ⟨i, rfl⟩
      · exact ih k (i + 1) ev h2

/-- When no joined task panicked, the join phase collects every task:
each index below the task count has its done event. -/
theorem joinEvents_complete : ∀ (l : List (PResult Unit)) (k i j : Nat),
    (joinEvents k i l).2 = true → j < l.length →
    TraceEv.doneEv k (i + j) ∈ (joinEvents k i l).1 := by
  intro l
  induction l with
  | nil => intro k i j _ hj; simp at hj
  | cons r rest ih =>
    intro k i j halive hj
    cases r with
    | panicked =>
      rw [show (joinEvents k i (PResult.panicked :: rest)).2 = false from rfl] at halive
      exact absurd halive (by simp)
    | ok a =>
      rw [show (joinEvents k i (PResult.ok a :: rest)).1 =
        TraceEv.doneEv k i :: (joinEvents k (i + 1) rest).1 from rfl]
      cases j with
      | zero => simp
      | succ j2 =>
        have halive2 : (joinEvents k (i + 1) rest).2 = true := halive
        have heq : i + (j2 + 1) = (i + 1) + j2 := by omega
        rw [heq]
        exact List.mem_cons_of_mem _ (ih k (i + 1) j2 halive2 (by simpa using hj))
    | err e =>
      rw [show (joinEvents k i (PResult.err e :: rest)).1 =
        TraceEv.doneEv k i :: (joinEvents k (i + 1) rest).1 from rfl]
      cases j with
      | zero => simp
      | succ j2 =>
        have halive2 : (joinEvents k (i + 1) rest).2 = true := halive
        have heq : i + (j2 + 1) = (i + 1) + j2 := by omega
        rw [heq]
        exact List.mem_cons_of_mem _ (ih k (i + 1) j2 halive2 (by simpa using hj))

/-- Every event in the trace starting at round counter k belongs to round k
or a later one. -/
theorem listenTrace_round_ge : ∀ (rs : List Round) (k : Nat) (off : Int) (ev : TraceEv),
    ev ∈ listenTrace k off rs → k ≤ ev.round := by
  intro rs
  induction rs with
  | nil => intro k off ev h; simp [listenTrace] at h
  | cons r rs ih =>
    intro k off ev h
    cases hg : get_updates off r.resp with
    | err e =>
      simp only [listenTrace, hg] at h
      rcases List.mem_cons.mp h with rfl | h2
      · exact le_refl k
      · have := ih (k + 1) off ev h2
        omega
    | panicked =>
      simp only [listenTrace, hg] at h
      rcases List.mem_cons.mp h with rfl | h2
      · exact le_refl k
      · simp at h2
    | ok p =>
      obtain ⟨response, off2⟩ := p
      cases response with
      | jarr arr =>
        simp only [listenTrace, hg] at h
        rcases List.mem_cons.mp h with rfl | h2
        · exact le_refl k
        · rcases List.mem_append.mp h2 with hSD | hR
          · rcases List.mem_append.mp hSD with hS | hD
            · obtain ⟨i, _, rfl⟩ := mem_spawnSegment hS
              exact le_refl k
            · obtain ⟨j, rfl⟩ := joinEvents_mem_done _ _ _ _ hD
              exact le_refl k
          · have hnext := contTrace_subset ev hR
            have := ih (k + 1) off2 ev hnext
            omega
      | null =>
        simp only [listenTrace, hg] at h
        rcases List.mem_cons.mp h with rfl | h2
        · exact le_refl k
        · simp at h2
      | jbool b =>
        simp only [listenTrace, hg] at h
        rcases List.mem_cons.mp h with rfl | h2
        · exact le_refl k
        · simp at h2
      | jint n =>
        simp only [listenTrace, hg] at h
        rcases List.mem_cons.mp h with rfl | h2
        · exact le_refl k
        · simp at h2
      | jstr s =>
        simp only [listenTrace, hg] at h
        rcases List.mem_cons.mp h with rfl | h2
        · exact le_refl k
        · simp at h2
      | jobj fs =>
        simp only [listenTrace, hg] at h
        rcases List.mem_cons.mp h with rfl | h2
        · exact le_refl k
        · simp at h2

/-- Splitting an append at a distinguished occurrence: the occurrence lies
either beyond the left part or inside it. -/
theorem append_split_cases {α : Type} {L rest pre post : List α} {a : α}
    (h : L ++ rest = pre ++ a :: post) :
    (∃ r1, pre = L ++ r1 ∧ rest = r1 ++ a :: post) ∨
    (∃ l2, L = pre ++ a :: l2 ∧ post = l2 ++ rest) := by
  rcases List.append_eq_append_iff.mp h with ⟨a2, h1, h2⟩ | ⟨c2, h1, h2⟩
  · exact Or.inl ⟨a2, h1, h2⟩
  · cases c2 with
    | nil =>
      refine Or.inl ⟨[], by simpa using h1.symm, ?_⟩
      simpa using h2.symm
    | cons x l2 =>
      obtain ⟨rfl, hpost⟩ : x = a ∧ post = l2 ++ rest := by
        have := h2
        simp at this
        exact ⟨this.1.symm, this.2⟩
      exact Or.inr ⟨l2, h1, hpost⟩

/-- When the distinguished occurrence cannot lie in the left part, the
split lands strictly beyond it. -/
theorem append_split_of_not_mem_left {α : Type} {L rest pre post : List α} {a : α}
    (h : L ++ rest = pre ++ a :: post) (ha : a ∉ L) :
    ∃ r1, pre = L ++ r1 ∧ rest = r1 ++ a :: post := by
  rcases append_split_cases h with hcase | ⟨l2, hL, _⟩
  · exact hcase
  · exact absurd (hL ▸ List.mem_append_right pre (List.mem_cons_self a l2)) ha

/-- Barrier lemma, generalized over the starting round counter: wherever a
later round's fetch occurs in the trace, every task spawned in the previous
round was collected before it. -/
theorem barrier_aux : ∀ (rs : List Round) (k : Nat) (off : Int)
    (pre post : List TraceEv) (K idx : Nat),
    listenTrace k off rs = pre ++ TraceEv.fetchEv (K + 1) :: post →
    TraceEv.spawnEv K idx ∈ listenTrace k off rs →
    TraceEv.doneEv K idx ∈ pre := by
  intro rs
  induction rs with
  | nil =>
    intro k off pre post K idx heq hmem
    simp [listenTrace] at hmem
  | cons r rs ih =>
    intro k off pre post K idx heq hmem
    cases hg : get_updates off r.resp with
    | err e =>
      simp only [listenTrace, hg] at heq hmem
      rcases List.mem_cons.mp hmem with hcontra | hmem2
      · exact absurd hcontra (fun hc => TraceEv.noConfusion hc)
      cases pre with
      | nil =>
        simp only [List.nil_append, List.cons.injEq, TraceEv.fetchEv.injEq] at heq
        have hge := listenTrace_round_ge rs (k + 1) off _ hmem2
        simp only [TraceEv.round] at hge
        omega
      | cons e0 pre2 =>
        simp only [List.cons_append, List.cons.injEq] at heq
        exact List.mem_cons_of_mem _ (ih (k + 1) off pre2 post K idx heq.2 hmem2)
    | panicked =>
      simp only [listenTrace, hg] at hmem
      rcases List.mem_cons.mp hmem with hcontra | hmem2
      · exact absurd hcontra (fun hc => TraceEv.noConfusion hc)
      · simp at hmem2
    | ok p =>
      obtain ⟨response, off2⟩ := p
      cases response with
      | jarr arr =>
        simp only [listenTrace, hg] at heq hmem
        rcases List.mem_cons.mp hmem with hcontra | hmem2
        · exact absurd hcontra (fun hc => TraceEv.noConfusion hc)
        cases pre with
        | nil =>
          simp only [List.nil_append, List.cons.injEq, TraceEv.fetchEv.injEq] at heq
          rcases List.mem_append.mp hmem2 with hSD | hC
          · rcases List.mem_append.mp hSD with hS | hD
            · obtain ⟨i, hi, hev⟩ := mem_spawnSegment hS
              injection hev with h1 h2
              omega
            · obtain ⟨j, hev⟩ := joinEvents_mem_done _ _ _ _ hD
              exact absurd hev (fun hc => TraceEv.noConfusion hc)
          · have hnext := contTrace_subset _ hC
            have hge := listenTrace_round_ge rs (k + 1) off2 _ hnext
            simp only [TraceEv.round] at hge
            omega
        | cons e0 pre2 =>
          simp only [List.cons_append, List.cons.injEq] at heq
          have heq2 := heq.2
          rw [List.append_assoc] at heq2
          obtain ⟨r1, hpre2, hDC⟩ := append_split_of_not_mem_left heq2 (fun hin => by
            obtain ⟨i, _, hev⟩ := mem_spawnSegment hin
            exact TraceEv.noConfusion hev)
          obtain ⟨r2, hr1, hC⟩ := append_split_of_not_mem_left hDC (fun hin => by
            obtain ⟨j, hev⟩ := joinEvents_mem_done _ _ _ _ hin
            exact TraceEv.noConfusion hev)
          obtain ⟨halive, hnext⟩ := contTrace_eq_cons hC
          rcases List.mem_append.mp hmem2 with hSD | hC2
          · rcases List.mem_append.mp hSD with hS | hD
            · obtain ⟨i, hi, hev⟩ := mem_spawnSegment hS
              injection hev with h1 h2
              rw [h1, h2]
              have hlen : ((spawnResults r.envs 0 arr).map Prod.fst).length = arr.length := by
                rw [List.length_map, spawnResults_length]
              have hdone := joinEvents_complete ((spawnResults r.envs 0 arr).map Prod.fst)
                k 0 i halive (by omega)
              simp only [Nat.zero_add] at hdone
              apply List.mem_cons_of_mem
              rw [hpre2, hr1]
              exact List.mem_append_right _ (List.mem_append_left _ hdone)
            · obtain ⟨j, hev⟩ := joinEvents_mem_done _ _ _ _ hD
              exact absurd hev (fun hc => TraceEv.noConfusion hc)
          · have hnext2 := contTrace_subset _ hC2
            have hin := ih (k + 1) off2 r2 post K idx hnext hnext2
            apply List.mem_cons_of_mem
            rw [hpre2, hr1]
            exact List.mem_append_right _ (List.mem_append_right _ hin)
      | null =>
        simp only [listenTrace, hg] at hmem
        rcases List.mem_cons.mp hmem with hcontra | hmem2
        · exact absurd hcontra (fun hc => TraceEv.noConfusion hc)
        · simp at hmem2
      | jbool b =>
        simp only [listenTrace, hg] at hmem
        rcases List.mem_cons.mp hmem with hcontra | hmem2
        · exact absurd hcontra (fun hc => TraceEv.noConfusion hc)
        · simp at hmem2
      | jint n =>
        simp only [listenTrace, hg] at hmem
        rcases List.mem_cons.mp hmem with hcontra | hmem2
        · exact absurd hcontra (fun hc => TraceEv.noConfusion hc)
        · simp at hmem2
      | jstr s =>
        simp only [listenTrace, hg] at hmem
        rcases List.mem_cons.mp hmem with hcontra | hmem2
        · exact absurd hcontra (fun hc => TraceEv.noConfusion hc)
        · simp at hmem2
      | jobj fs =>
        simp only [listenTrace, hg] at hmem
        rcases List.mem_cons.mp hmem with hcontra | hmem2
        · exact absurd hcontra (fun hc => TraceEv.noConfusion hc)
        · simp at hmem2

/-- Fan-out lemma, generalized over the starting round counter: wherever a
round-K task's result is collected, every round-K spawn lies before it. -/
theorem fanout_aux : ∀ (rs : List Round) (k : Nat) (off : Int)
    (pre post : List TraceEv) (K idx idx2 : Nat),
    listenTrace k off rs = pre ++ TraceEv.doneEv K idx :: post →
    TraceEv.spawnEv K idx2 ∈ listenTrace k off rs →
    TraceEv.spawnEv K idx2 ∈ pre := by
  intro rs
  induction rs with
  | nil =>
    intro k off pre post K idx idx2 heq hmem
    simp [listenTrace] at hmem
  | cons r rs ih =>
    intro k off pre post K idx idx2 heq hmem
    cases hg : get_updates off r.resp with
    | err e =>
      simp only [listenTrace, hg] at heq hmem
      rcases List.mem_cons.mp hmem with hcontra | hmem2
      · exact absurd hcontra (fun hc => TraceEv.noConfusion hc)
      cases pre with
      | nil =>
        simp only [List.nil_append, List.cons.injEq] at heq
        exact absurd heq.1 (fun hc => TraceEv.noConfusion hc)
      | cons e0 pre2 =>
        simp only [List.cons_append, List.cons.injEq] at heq
        exact List.mem_cons_of_mem _ (ih (k + 1) off pre2 post K idx idx2 heq.2 hmem2)
    | panicked =>
      simp only [listenTrace, hg] at hmem
      rcases List.mem_cons.mp hmem with hcontra | hmem2
      · exact absurd hcontra (fun hc => TraceEv.noConfusion hc)
      · simp at hmem2
    | ok p =>
      obtain ⟨response, off2⟩ := p
      cases response with
      | jarr arr =>
        simp only [listenTrace, hg] at heq hmem
        rcases List.mem_cons.mp hmem with hcontra | hmem2
        · exact absurd hcontra (fun hc => TraceEv.noConfusion hc)
        cases pre with
        | nil =>
          simp only [List.nil_append, List.cons.injEq] at heq
          exact absurd heq.1 (fun hc => TraceEv.noConfusion hc)
        | cons e0 pre2 =>
          simp only [List.cons_append, List.cons.injEq] at heq
          have heq2 := heq.2
          rw [List.append_assoc] at heq2
          obtain ⟨r1, hpre2, hDC⟩ := append_split_of_not_mem_left heq2 (fun hin => by
            obtain ⟨i, _, hev⟩ := mem_spawnSegment hin
            exact TraceEv.noConfusion hev)
          rcases append_split_cases hDC with ⟨r2, hr1, hC⟩ | ⟨l2, hD, hpost⟩
          · obtain ⟨halive, hnext⟩ := contTrace_eq_cons hC
            have hKge : k + 1 ≤ K := by
              have hmemnext : TraceEv.doneEv K idx ∈ listenTrace (k + 1) off2 rs := by
                rw [hnext]
                exact List.mem_append_right _ (List.mem_cons_self _ _)
              have := listenTrace_round_ge rs (k + 1) off2 _ hmemnext
              simpa [TraceEv.round] using this
            rcases List.mem_append.mp hmem2 with hSD | hC2
            · rcases List.mem_append.mp hSD with hS | hD2
              · obtain ⟨i, hi, hev⟩ := mem_spawnSegment hS
                injection hev with h1 h2
                omega
              · obtain ⟨j, hev⟩ := joinEvents_mem_done _ _ _ _ hD2
                exact absurd hev (fun hc => TraceEv.noConfusion hc)
            · have hnext2 := contTrace_subset _ hC2
              have hin := ih (k + 1) off2 r2 post K idx idx2 hnext hnext2
              apply List.mem_cons_of_mem
              rw [hpre2, hr1]
              exact List.mem_append_right _ (List.mem_append_right _ hin)
          · have hKeq : K = k := by
              have hmemD : TraceEv.doneEv K idx ∈
                  (joinEvents k 0 ((spawnResults r.envs 0 arr).map Prod.fst)).1 := by
                rw [hD]
                exact List.mem_append_right _ (List.mem_cons_self _ _)
              obtain ⟨j, hev⟩ := joinEvents_mem_done _ _ _ _ hmemD
              injection hev with h1 h2
            rcases List.mem_append.mp hmem2 with hSD | hC2
            · rcases List.mem_append.mp hSD with hS | hD2
              · apply List.mem_cons_of_mem
                rw [hpre2]
                exact List.mem_append_left _ hS
              · obtain ⟨j, hev⟩ := joinEvents_mem_done _ _ _ _ hD2
                exact absurd hev (fun hc => TraceEv.noConfusion hc)
            · have hnext2 := contTrace_subset _ hC2
              have hge := listenTrace_round_ge rs (k + 1) off2 _ hnext2
              simp only [TraceEv.round] at hge
              omega
      | null =>
        simp only [listenTrace, hg] at hmem
        rcases List.mem_cons.mp hmem with hcontra | hmem2
        · exact absurd hcontra (fun hc => TraceEv.noConfusion hc)
        · simp at hmem2
      | jbool b =>
        simp only [listenTrace, hg] at hmem
        rcases List.mem_cons.mp hmem with hcontra | hmem2
        · exact absurd hcontra (fun hc => TraceEv.noConfusion hc)
        · simp at hmem2
      | jint n =>
        simp only [listenTrace, hg] at hmem
        rcases List.mem_cons.mp hmem with hcontra | hmem2
        · exact absurd hcontra (fun hc => TraceEv.noConfusion hc)
        · simp at hmem2
      | jstr s =>
        simp only [listenTrace, hg] at hmem
        rcases List.mem_cons.mp hmem with hcontra | hmem2
        · exact absurd hcontra (fun hc => TraceEv.noConfusion hc)
        · simp at hmem2
      | jobj fs =>
        simp only [listenTrace, hg] at hmem
        rcases List.mem_cons.mp hmem with hcontra | hmem2
        · exact absurd hcontra (fun hc => TraceEv.noConfusion hc)
        · simp at hmem2

/-! C2. -/

/-- C2: in every scheduling trace of listen, a round's fetch is issued only
after every task spawned in the previous round has been collected (round
barrier), and a round's task results are collected only after all of that
round's tasks have been spawned (fan out, then join). -/
theorem c2_round_barrier (offset : Int) (rounds : List Round) :
    roundBarrierProp (listenTrace 0 offset rounds) ∧
    fanOutProp (listenTrace 0 offset rounds) := by
  constructor
  · intro pre post K heq idx hmem
    exact barrier_aux rounds 0 offset pre post K idx heq hmem
  · intro pre post K idx heq idx2 hmem
    exact fanout_aux rounds 0 offset pre post K idx idx2 heq hmem

end ChatBot
